import Mathlib

/-!
Verification development for the probabilistic stream-analytics structures of
the repository: Bloom filter and Count-Min Sketch (code/chapter09/bloomfilter.go),
MinHash / LSH / DocumentSet (the near-duplicate index file), and the LogAnalyzer
pipeline (the log-analysis file).  External hash libraries (murmur3, fnv) are
modelled as explicit function arguments: every theorem quantifies over the hash
function, so it covers the concrete library hashes in particular.  Go strings
and byte slices are modelled as String, uint32/uint64 arithmetic as Nat with
explicit reduction modulo 2^32 / 2^64 where the Go code can wrap.
-/

namespace Gophers

/-! ## Bloom filter (code/chapter09/bloomfilter.go) -/

/-- The BloomFilter struct: a bitset of uint64 words, the size in bits, and the
number of hash functions.  Words are Nat values below 2^64; only bitwise or is
ever applied to them, which cannot leave that range. -/
structure BloomFilter where
  bitset : List Nat
  size : Nat
  k : Nat
deriving Repr, DecidableEq

/-- getPosition: murmur3.Sum64WithSeed(data, hashNum) reduced modulo the bit
size.  The seeded 64-bit hash is the explicit argument hash. -/
def BloomFilter.getPosition (hash : String → Nat → Nat) (bf : BloomFilter)
    (data : String) (hashNum : Nat) : Nat :=
  hash data hashNum % bf.size

/-- One iteration of the loop body of Add: bitset[position/64] |= 1 << (position%64). -/
def setBit (bs : List Nat) (position : Nat) : List Nat :=
  bs.set (position / 64) (bs.getD (position / 64) 0 ||| 1 <<< (position % 64))

/-- Add: sets the k bit positions of data. -/
def BloomFilter.Add (hash : String → Nat → Nat) (bf : BloomFilter)
    (data : String) : BloomFilter :=
  { bf with
    bitset := (List.range bf.k).foldl
      (fun bs i => setBit bs (bf.getPosition hash data i)) bf.bitset }

/-- Contains: true only if every one of the k bit positions of data is set
(the Go loop returns false at the first clear bit). -/
def BloomFilter.Contains (hash : String → Nat → Nat) (bf : BloomFilter)
    (data : String) : Bool :=
  (List.range bf.k).all fun i =>
    let position := bf.getPosition hash data i
    bf.bitset.getD (position / 64) 0 &&& 1 <<< (position % 64) != 0

/-- The shape NewBloomFilter establishes: a positive bit size and a bitset of
(size+63)/64 words.  Both hold for every filter the Go constructor returns with
a positive computed size. -/
def BloomFilter.WF (bf : BloomFilter) : Prop :=
  0 < bf.size ∧ bf.bitset.length = (bf.size + 63) / 64

instance (bf : BloomFilter) : Decidable bf.WF := by
  unfold BloomFilter.WF; infer_instance

/-- NewBloomFilter performs no validation at all: it unconditionally returns a
filter with a zeroed bitset of (size+63)/64 words.  size and k are the values
of the float formulas optimalBitSize and optimalHashCount, taken as arguments
here because float arithmetic is not embedded; for the invalid input
expectedElements = 0, falsePositiveRate = 0.5 the size formula is exactly
ceil(-0 * ln(0.5) / ln(2)^2) = 0, and k is the implementation-defined uint
conversion of NaN. -/
def NewBloomFilter (size k : Nat) : BloomFilter :=
  { bitset := List.replicate ((size + 63) / 64) 0, size := size, k := k }

/-- Reading the bit at a position of the word array, exactly as Contains does. -/
def bitGet (bs : List Nat) (position : Nat) : Bool :=
  Nat.testBit (bs.getD (position / 64) 0) (position % 64)

theorem getD_set_self : ∀ (l : List Nat) (i v : Nat), i < l.length →
    (l.set i v).getD i 0 = v
  | _ :: _, 0, _, _ => rfl
  | _ :: l, i + 1, v, h => getD_set_self l i v (Nat.lt_of_succ_lt_succ h)

theorem getD_set_other : ∀ (l : List Nat) (i j v : Nat), i ≠ j →
    (l.set i v).getD j 0 = l.getD j 0
  | [], _, _, _, _ => rfl
  | _ :: _, 0, 0, _, h => absurd rfl h
  | _ :: _, 0, _ + 1, _, _ => rfl
  | _ :: _, _ + 1, 0, _, _ => rfl
  | _ :: l, i + 1, j + 1, v, h =>
    getD_set_other l i j v (fun e => h (congrArg Nat.succ e))

theorem length_setBit (bs : List Nat) (p : Nat) :
    (setBit bs p).length = bs.length := by
  simp [setBit]

/-- The Contains test of a single word position is exactly testBit. -/
theorem maskTest_eq_testBit (x b : Nat) :
    (x &&& 1 <<< b != 0) = Nat.testBit x b := by
  rw [Nat.shiftLeft_eq, one_mul, Nat.and_two_pow]
  cases h : Nat.testBit x b <;> simp [h]

/-- setBit never clears a bit anywhere in the array. -/
theorem testBit_setBit_mono (bs : List Nat) (p j i : Nat)
    (h : Nat.testBit (bs.getD j 0) i = true) :
    Nat.testBit ((setBit bs p).getD j 0) i = true := by
  by_cases hj : p / 64 = j
  · subst hj
    by_cases hr : p / 64 < bs.length
    · rw [setBit, getD_set_self _ _ _ hr, Nat.testBit_lor, h, Bool.true_or]
    · rw [setBit, List.set_eq_of_length_le (Nat.le_of_not_lt hr)]
      exact h
  · rw [setBit, getD_set_other _ _ _ _ hj]
    exact h

/-- setBit does set the requested bit when its word is inside the array. -/
theorem bitGet_setBit_self (bs : List Nat) (p : Nat)
    (h : p / 64 < bs.length) : bitGet (setBit bs p) p = true := by
  rw [bitGet, setBit, getD_set_self _ _ _ h, Nat.testBit_lor, Nat.shiftLeft_eq,
    one_mul, Nat.testBit_two_pow_self, Bool.or_true]

theorem bitGet_setBit_mono (bs : List Nat) (p q : Nat)
    (h : bitGet bs q = true) : bitGet (setBit bs p) q = true :=
  testBit_setBit_mono bs p (q / 64) (q % 64) h

/-- The bitset fold of Add keeps the word count. -/
theorem length_foldl_setBit (pos : Nat → Nat) :
    ∀ (l : List Nat) (bs : List Nat),
      (l.foldl (fun bs i => setBit bs (pos i)) bs).length = bs.length
  | [], _ => rfl
  | _ :: l, bs => (length_foldl_setBit pos l _).trans (length_setBit ..)

/-- The bitset fold of Add never clears a set bit. -/
theorem bitGet_foldl_setBit_mono (pos : Nat → Nat) :
    ∀ (l : List Nat) (bs : List Nat) (q : Nat), bitGet bs q = true →
      bitGet (l.foldl (fun bs i => setBit bs (pos i)) bs) q = true
  | [], _, _, h => h
  | _ :: l, bs, q, h =>
    bitGet_foldl_setBit_mono pos l _ q (bitGet_setBit_mono bs _ q h)

/-- Each visited position comes out set, provided its word is inside the array. -/
theorem bitGet_foldl_setBit_self (pos : Nat → Nat) :
    ∀ (l : List Nat) (bs : List Nat) (i : Nat), i ∈ l →
      pos i / 64 < bs.length →
      bitGet (l.foldl (fun bs i => setBit bs (pos i)) bs) (pos i) = true := by
  intro l
  induction l with
  | nil => intro bs i h; cases h
  | cons a l ih =>
    intro bs i h hr
    rcases List.mem_cons.mp h with h | h
    · subst h
      exact bitGet_foldl_setBit_mono pos l _ _ (bitGet_setBit_self bs _ hr)
    · exact ih _ i h (by rwa [length_setBit])

/-- Contains unfolded to the per-position bit test. -/
theorem contains_eq_all_bitGet (hash : String → Nat → Nat) (bf : BloomFilter)
    (data : String) :
    bf.Contains hash data
      = (List.range bf.k).all fun i => bitGet bf.bitset (bf.getPosition hash data i) := by
  unfold BloomFilter.Contains bitGet
  congr 1
  funext i
  exact maskTest_eq_testBit ..

/-- Add changes only the bitset. -/
theorem add_size (hash : String → Nat → Nat) (bf : BloomFilter) (data : String) :
    (bf.Add hash data).size = bf.size := rfl

theorem add_k (hash : String → Nat → Nat) (bf : BloomFilter) (data : String) :
    (bf.Add hash data).k = bf.k := rfl

theorem add_bitset_length (hash : String → Nat → Nat) (bf : BloomFilter)
    (data : String) : (bf.Add hash data).bitset.length = bf.bitset.length :=
  length_foldl_setBit _ _ _

theorem add_bitGet_mono (hash : String → Nat → Nat) (bf : BloomFilter)
    (data : String) (q : Nat) (h : bitGet bf.bitset q = true) :
    bitGet (bf.Add hash data).bitset q = true :=
  bitGet_foldl_setBit_mono _ _ _ _ h

/-- A position below the bit size lives inside the word array of a well-formed
filter. -/
theorem position_div_lt (size len p : Nat) (hlen : len = (size + 63) / 64)
    (hp : p < size) : p / 64 < len := by
  subst hlen
  have h1 : p + 64 ≤ size + 63 := by omega
  have h2 : (p + 64) / 64 ≤ (size + 63) / 64 := Nat.div_le_div_right h1
  have h3 : (p + 64) / 64 = p / 64 + 1 := Nat.add_div_right p (by omega)
  omega

/-- Well-formedness survives Add. -/
theorem add_WF (hash : String → Nat → Nat) (bf : BloomFilter) (data : String)
    (h : bf.WF) : (bf.Add hash data).WF := by
  obtain ⟨h1, h2⟩ := h
  exact ⟨h1, by rw [add_bitset_length, add_size]; exact h2⟩

/-- Contains is true right after Add on a well-formed filter. -/
theorem contains_after_add (hash : String → Nat → Nat) (bf : BloomFilter)
    (data : String) (h : bf.WF) :
    (bf.Add hash data).Contains hash data = true := by
  rw [contains_eq_all_bitGet, List.all_eq_true]
  intro i hi
  have hsz : (bf.Add hash data).size = bf.size := rfl
  have hpos : (bf.Add hash data).getPosition hash data i
      = bf.getPosition hash data i := rfl
  rw [hpos]
  have hlt : bf.getPosition hash data i < bf.size :=
    Nat.mod_lt _ h.1
  exact bitGet_foldl_setBit_self _ _ _ _ (List.mem_range.mpr (by simpa using hi))
    (position_div_lt bf.size bf.bitset.length _ h.2 hlt)

/-- Contains stays true across any later fold of Adds (of any items). -/
theorem contains_after_foldl_add (hash : String → Nat → Nat) :
    ∀ (others : List String) (bf : BloomFilter) (data : String),
      bf.Contains hash data = true →
      (others.foldl (fun acc item => acc.Add hash item) bf).Contains hash data = true := by
  intro others
  induction others with
  | nil => intro bf data h; exact h
  | cons o others ih =>
    intro bf data h
    refine ih _ data ?_
    rw [contains_eq_all_bitGet] at h ⊢
    rw [List.all_eq_true] at h ⊢
    intro i hi
    exact add_bitGet_mono hash bf o _ (h i hi)

/-- General form of the monotonicity: no word of the array ever loses a bit
across the fold of setBit. -/
theorem testBit_foldl_setBit_mono (pos : Nat → Nat) :
    ∀ (l : List Nat) (bs : List Nat) (j i : Nat),
      Nat.testBit (bs.getD j 0) i = true →
      Nat.testBit ((l.foldl (fun bs i => setBit bs (pos i)) bs).getD j 0) i = true
  | [], _, _, _, h => h
  | _ :: l, bs, j, i, h =>
    testBit_foldl_setBit_mono pos l _ j i (testBit_setBit_mono bs _ j i h)

/-- A concrete stand-in for the murmur3 64-bit seeded hash, used by witnesses. -/
def hashW (s : String) (seed : Nat) : Nat :=
  s.length * 31 + seed

/-- C2: for every Bloom filter of the constructor's shape, every item and
every sequence of later Add calls, Contains(item) is true immediately after
Add(item) and after the whole later sequence: false negatives are impossible. -/
theorem bloom_no_false_negatives (hash : String → Nat → Nat) (bf : BloomFilter)
    (data : String) (others : List String) (h : bf.WF) :
    (others.foldl (fun acc item => acc.Add hash item) (bf.Add hash data)).Contains
      hash data = true :=
  contains_after_foldl_add hash others _ data (contains_after_add hash bf data h)

theorem bloom_no_false_negatives_witness :
    (BloomFilter.mk [0] 64 1).WF ∧
    ((["y", "z"].foldl (fun acc item => acc.Add hashW item)
        ((BloomFilter.mk [0] 64 1).Add hashW "x")).Contains hashW "x" = true) :=
  ⟨by decide, bloom_no_false_negatives hashW (BloomFilter.mk [0] 64 1) "x" ["y", "z"] (by decide)⟩

/-- C9: one Add call never shrinks the bit array, never changes the configured
size, and never clears a set bit; Contains is a pure read (it is a function of
the filter returning Bool, with no state output). -/
theorem bloom_bitset_monotone (hash : String → Nat → Nat) (bf : BloomFilter)
    (data : String) :
    (bf.Add hash data).bitset.length = bf.bitset.length ∧
    (bf.Add hash data).size = bf.size ∧
    (∀ j i : Nat, Nat.testBit (bf.bitset.getD j 0) i = true →
      Nat.testBit ((bf.Add hash data).bitset.getD j 0) i = true) :=
  ⟨add_bitset_length hash bf data, rfl,
    fun j i h => testBit_foldl_setBit_mono _ _ _ j i h⟩

/-! ## Count-Min Sketch (code/chapter09/bloomfilter.go, second file) -/

/-- The CountMinSketch struct: a depth x width matrix of uint32 counters
(Nat values below 2^32), kept at matrix.length = depth by the constructor. -/
structure CountMinSketch where
  matrix : List (List Nat)
  width : Nat
  depth : Nat
deriving Repr, DecidableEq

/-- NewCountMinSketch with the width and depth the Go constructor computes from
epsilon and delta (ceil(e/epsilon) and ceil(ln(1/delta)), both at least 1 for
parameters in (0,1)); the zeroed matrix is exact. -/
def NewCountMinSketch (width depth : Nat) : CountMinSketch :=
  { matrix := List.replicate depth (List.replicate width 0)
    width := width
    depth := depth }

/-- getPosition: murmur3.Sum64WithSeed(data, i) modulo the width. -/
def CountMinSketch.getPosition (hash : String → Nat → Nat) (cms : CountMinSketch)
    (data : String) (hashNum : Nat) : Nat :=
  hash data hashNum % cms.width

/-- Apply f at each row together with its index: the loop for i < depth over
matrix[i], for a matrix whose length is depth. -/
def updRows (f : Nat → List Nat → List Nat) : Nat → List (List Nat) → List (List Nat)
  | _, [] => []
  | i, r :: rs => f i r :: updRows f (i + 1) rs

/-- Increment: matrix[i][position_i] += count for every row i, with the uint32
addition wrapping modulo 2^32 exactly as Go's += does. -/
def CountMinSketch.Increment (hash : String → Nat → Nat) (cms : CountMinSketch)
    (data : String) (count : Nat) : CountMinSketch :=
  { cms with
    matrix := updRows
      (fun i row =>
        row.set (cms.getPosition hash data i)
          ((row.getD (cms.getPosition hash data i) 0 + count) % 2 ^ 32))
      0 cms.matrix }

/-- Count: the minimum of matrix[i][position_i] over the rows, starting from
math.MaxUint32. -/
def CountMinSketch.Count (hash : String → Nat → Nat) (cms : CountMinSketch)
    (data : String) : Nat :=
  (List.range cms.depth).foldl
    (fun m i =>
      min m ((cms.matrix.getD i []).getD (cms.getPosition hash data i) 0))
    (2 ^ 32 - 1)

/-- Run a whole sequence of Increment calls on a fresh sketch. -/
def runCMS (hash : String → Nat → Nat) (width depth : Nat)
    (ops : List (String × Nat)) : CountMinSketch :=
  ops.foldl (fun s op => s.Increment hash op.1 op.2) (NewCountMinSketch width depth)

/-- The total mass the sequence of Increment calls sends into the counter cell
(row i, column p): every increment whose data hashes to column p in row i. -/
def cellMass (hash : String → Nat → Nat) (width i p : Nat) :
    List (String × Nat) → Nat
  | [] => 0
  | op :: rest =>
    (if hash op.1 i % width = p then op.2 else 0) + cellMass hash width i p rest

/-- The true total added for one item x across the sequence. -/
def totalFor (x : String) : List (String × Nat) → Nat
  | [] => 0
  | op :: rest => (if op.1 = x then op.2 else 0) + totalFor x rest

theorem cellMass_append (hash : String → Nat → Nat) (width i p : Nat) :
    ∀ (l1 l2 : List (String × Nat)),
      cellMass hash width i p (l1 ++ l2)
        = cellMass hash width i p l1 + cellMass hash width i p l2
  | [], _ => (Nat.zero_add _).symm
  | _ :: l1, l2 => by
    simp only [List.cons_append, cellMass, List.append_eq]
    rw [cellMass_append hash width i p l1 l2]
    omega

theorem totalFor_append (x : String) : ∀ (l1 l2 : List (String × Nat)),
    totalFor x (l1 ++ l2) = totalFor x l1 + totalFor x l2
  | [], _ => (Nat.zero_add _).symm
  | _ :: l1, l2 => by
    simp only [List.cons_append, totalFor, List.append_eq]
    rw [totalFor_append x l1 l2]
    omega

/-- Every increment for x itself lands in the cell x hashes to, so the true
total for x never exceeds the mass of that cell. -/
theorem totalFor_le_cellMass (hash : String → Nat → Nat) (width i : Nat)
    (x : String) : ∀ (ops : List (String × Nat)),
      totalFor x ops ≤ cellMass hash width i (hash x i % width) ops
  | [] => Nat.le_refl 0
  | op :: rest => by
    have ih := totalFor_le_cellMass hash width i x rest
    simp only [totalFor, cellMass]
    by_cases hx : op.1 = x
    · rw [if_pos hx, if_pos (by rw [hx])]
      omega
    · rw [if_neg hx]
      omega

theorem updRows_length (f : Nat → List Nat → List Nat) :
    ∀ (k : Nat) (m : List (List Nat)), (updRows f k m).length = m.length
  | _, [] => rfl
  | k, _ :: rs => congrArg Nat.succ (updRows_length f (k + 1) rs)

theorem updRows_getD (f : Nat → List Nat → List Nat) :
    ∀ (m : List (List Nat)) (k j : Nat),
      (updRows f k m).getD j []
        = if j < m.length then f (k + j) (m.getD j []) else []
  | [], _, j => by simp [updRows]
  | r :: rs, k, 0 => by simp [updRows]
  | r :: rs, k, j + 1 => by
    have ih := updRows_getD f rs (k + 1) j
    simp only [updRows, List.getD_cons_succ, List.length_cons, ih]
    by_cases hj : j < rs.length
    · rw [if_pos hj, if_pos (by omega)]
      congr 1
      omega
    · rw [if_neg hj, if_neg (by omega)]

/-- The state invariant maintained by runCMS: shape, and each cell equal to its
accumulated mass modulo 2^32. -/
def CMSInv (hash : String → Nat → Nat) (width depth : Nat)
    (ops : List (String × Nat)) (s : CountMinSketch) : Prop :=
  s.width = width ∧ s.depth = depth ∧ s.matrix.length = depth ∧
  (∀ j, j < depth → (s.matrix.getD j []).length = width) ∧
  (∀ i p, i < depth → p < width →
    (s.matrix.getD i []).getD p 0 = cellMass hash width i p ops % 2 ^ 32)

theorem cmsInv_nil (hash : String → Nat → Nat) (width depth : Nat) :
    CMSInv hash width depth [] (NewCountMinSketch width depth) := by
  refine ⟨rfl, rfl, by simp [NewCountMinSketch], ?_, ?_⟩
  · intro j hj
    simp [NewCountMinSketch, List.getD_eq_getElem?_getD, List.getElem?_replicate, hj]
  · intro i p hi hp
    simp [NewCountMinSketch, cellMass, List.getD_eq_getElem?_getD,
      List.getElem?_replicate, hi, hp]

theorem cmsInv_step (hash : String → Nat → Nat) (width depth : Nat)
    (hw : 0 < width) (ops : List (String × Nat)) (s : CountMinSketch)
    (hinv : CMSInv hash width depth ops s) (x : String) (c : Nat) :
    CMSInv hash width depth (ops ++ [(x, c)]) (s.Increment hash x c) := by
  obtain ⟨hW, hD, hL, hRow, hCell⟩ := hinv
  have hpos : ∀ i, s.getPosition hash x i = hash x i % width := by
    intro i; rw [CountMinSketch.getPosition, hW]
  refine ⟨hW, hD, ?_, ?_, ?_⟩
  · rw [CountMinSketch.Increment, updRows_length]
    exact hL
  · intro j hj
    rw [CountMinSketch.Increment]
    simp only
    rw [updRows_getD, hL, if_pos hj, Nat.zero_add, List.length_set]
    exact hRow j hj
  · intro i p hi hp
    rw [CountMinSketch.Increment]
    simp only
    rw [updRows_getD, hL, if_pos hi, Nat.zero_add]
    have hmem : hash x i % width < (s.matrix.getD i []).length := by
      rw [hRow i hi]
      exact Nat.mod_lt _ hw
    rw [cellMass_append]
    by_cases hpe : hash x i % width = p
    · subst hpe
      rw [hpos, getD_set_self _ _ _ hmem, hCell i _ hi (Nat.mod_lt _ hw)]
      have hone : cellMass hash width i (hash x i % width) [(x, c)] = c := by
        simp [cellMass]
      rw [hone]
      omega
    · rw [hpos, getD_set_other _ _ _ _ hpe, hCell i p hi hp]
      simp only [cellMass, if_neg hpe]
      omega

theorem cmsInv_run (hash : String → Nat → Nat) (width depth : Nat)
    (hw : 0 < width) (ops : List (String × Nat)) :
    CMSInv hash width depth ops (runCMS hash width depth ops) := by
  induction ops using List.reverseRecOn with
  | nil => exact cmsInv_nil hash width depth
  | append_singleton ops op ih =>
    rw [runCMS, List.foldl_append] at *
    exact cmsInv_step hash width depth hw ops _ ih op.1 op.2

/-- A fold of min is at least b when the start and every folded value are. -/
theorem le_foldl_min (g : Nat → Nat) (b : Nat) :
    ∀ (l : List Nat) (init : Nat), b ≤ init → (∀ i, i ∈ l → b ≤ g i) →
      b ≤ l.foldl (fun m i => min m (g i)) init
  | [], _, hinit, _ => hinit
  | a :: l, init, hinit, hall =>
    le_foldl_min g b l _ (le_min hinit (hall a (List.mem_cons_self a l)))
      fun i hi => hall i (List.mem_cons_of_mem a hi)

/-- The constant hash: every item lands in column 0 of every row.  Used by the
witnesses and counterexamples for the sketch. -/
def hash0 : String → Nat → Nat := fun _ _ => 0

/-- C1 (amended): as long as no counter cell that x hashes to overflows (each
such cell receives total mass below 2^32 over the whole sequence), the Count
estimate is at least the true total added for x; collisions only add mass. -/
theorem cms_count_never_underestimates (hash : String → Nat → Nat)
    (width depth : Nat) (ops : List (String × Nat)) (x : String)
    (hw : 0 < width) (hd : 0 < depth)
    (hmass : ∀ i, i < depth →
      cellMass hash width i (hash x i % width) ops < 2 ^ 32) :
    totalFor x ops ≤ (runCMS hash width depth ops).Count hash x := by
  obtain ⟨hW, hD, hL, hRow, hCell⟩ := cmsInv_run hash width depth hw ops
  rw [CountMinSketch.Count, hD]
  refine le_foldl_min _ _ _ _ ?_ ?_
  · have h0 := hmass 0 hd
    have ht := totalFor_le_cellMass hash width 0 x ops
    omega
  · intro i hi
    have hi' := List.mem_range.mp hi
    have hposx : (runCMS hash width depth ops).getPosition hash x i
        = hash x i % width := by
      rw [CountMinSketch.getPosition, hW]
    rw [hposx, hCell i _ hi' (Nat.mod_lt _ hw),
      Nat.mod_eq_of_lt (hmass i hi')]
    exact totalFor_le_cellMass hash width i x ops

theorem cms_count_never_underestimates_witness :
    ((0 : Nat) < 1 ∧ (0 : Nat) < 1 ∧
      (∀ i, i < 1 →
        cellMass hash0 1 i (hash0 "a" i % 1) [("a", 2), ("a", 3)] < 2 ^ 32)) ∧
    totalFor "a" [("a", 2), ("a", 3)]
      ≤ (runCMS hash0 1 1 [("a", 2), ("a", 3)]).Count hash0 "a" :=
  ⟨⟨by decide, by decide, by decide⟩,
    cms_count_never_underestimates hash0 1 1 [("a", 2), ("a", 3)] "a"
      (by decide) (by decide) (by decide)⟩

/-- C1 counterexample: two Increments of 2^31 for the same item make its only
counter cell wrap to 0, so Count returns 0 while the true total is 2^32 -- the
unqualified claim that Count never underestimates is false for the wrapping
uint32 counters. -/
theorem cms_count_underestimates_on_overflow :
    (runCMS hash0 1 1 [("a", 2 ^ 31), ("a", 2 ^ 31)]).Count hash0 "a"
      < totalFor "a" [("a", 2 ^ 31), ("a", 2 ^ 31)] := by decide

/-- C5: the Go += on a uint32 cell wraps rather than saturates: a cell holding
math.MaxUint32 drops to 0 when 1 more is added, so a cell value does decrease
across an Increment call, contradicting the saturating-add claim. -/
theorem cms_increment_wraps :
    ((NewCountMinSketch 1 1).Increment hash0 "x" (2 ^ 32 - 1)).Count hash0 "x"
        = 2 ^ 32 - 1 ∧
    (((NewCountMinSketch 1 1).Increment hash0 "x" (2 ^ 32 - 1)).Increment
        hash0 "x" 1).Count hash0 "x" = 0 := by decide

/-! ## MinHash (near-duplicate index file) -/

/-- math.MaxUint32, the sentinel the signature starts from. -/
def maxUint32 : Nat := 2 ^ 32 - 1

/-- The MinHash struct: the number of hash functions and their seeds. -/
structure MinHash where
  numHashes : Nat
  seeds : List Nat
deriving Repr, DecidableEq

/-- NewMinHash: seeds i+1 for i below numHashes. -/
def NewMinHash (numHashes : Nat) : MinHash :=
  { numHashes := numHashes
    seeds := (List.range numHashes).map (fun i => i + 1) }

/-- Signature: start from maxUint32 in every slot and, for each element of the
set, lower slot i to murmur3.Sum32WithSeed(element, seeds[i]) when that is
smaller.  The 32-bit seeded hash is the argument hash32, reduced modulo 2^32 as
the library's uint32 result is. -/
def MinHash.Signature (hash32 : String → Nat → Nat) (mh : MinHash)
    (set : List String) : List Nat :=
  set.foldl
    (fun signature s =>
      (signature.zip mh.seeds).map (fun p => min p.1 (hash32 s p.2 % 2 ^ 32)))
    (List.replicate mh.numHashes maxUint32)

/-- Similarity: 0.0 when either signature length differs from numHashes,
otherwise the fraction of equal positions.  Go's float64 arithmetic is modelled
by exact rationals. -/
def MinHash.Similarity (mh : MinHash) (sig1 sig2 : List Nat) : ℚ :=
  if sig1.length ≠ mh.numHashes ∨ sig2.length ≠ mh.numHashes then 0
  else ((sig1.zip sig2).countP (fun p => p.1 == p.2) : ℚ) / (mh.numHashes : ℚ)

/-- One Signature step over a slot list of the form seeds.map g. -/
theorem sigStep_map (h32 : String → Nat → Nat) (s : String) :
    ∀ (seeds : List Nat) (g : Nat → Nat),
      (((seeds.map g).zip seeds).map
          (fun p => min p.1 (h32 s p.2 % 2 ^ 32)))
        = seeds.map (fun sd => min (g sd) (h32 s sd % 2 ^ 32))
  | [], _ => rfl
  | sd :: seeds, g => by
    simp only [List.map_cons, List.zip_cons_cons]
    rw [sigStep_map h32 s seeds g]

/-- The whole Signature fold acts slotwise: slot sd ends at the fold of min
over the hashes of the set, started from g sd. -/
theorem sigFold_map (h32 : String → Nat → Nat) :
    ∀ (set : List String) (seeds : List Nat) (g : Nat → Nat),
      set.foldl
        (fun signature s =>
          (signature.zip seeds).map (fun p => min p.1 (h32 s p.2 % 2 ^ 32)))
        (seeds.map g)
      = seeds.map
          (fun sd => set.foldl (fun m s => min m (h32 s sd % 2 ^ 32)) (g sd))
  | [], _, _ => by simp
  | s :: set, seeds, g => by
    simp only [List.foldl_cons]
    rw [sigStep_map h32 s seeds g, sigFold_map h32 set seeds]

theorem foldl_min_le_init (f : String → Nat) :
    ∀ (l : List String) (c : Nat),
      l.foldl (fun m s => min m (f s)) c ≤ c
  | [], _ => Nat.le_refl _
  | s :: l, c =>
    Nat.le_trans (foldl_min_le_init f l (min c (f s))) (Nat.min_le_left ..)

theorem foldl_min_le_mem (f : String → Nat) :
    ∀ (l : List String) (c : Nat) (x : String), x ∈ l →
      l.foldl (fun m s => min m (f s)) c ≤ f x := by
  intro l
  induction l with
  | nil => intro c x h; cases h
  | cons s l ih =>
    intro c x h
    rcases List.mem_cons.mp h with h | h
    · subst h
      exact Nat.le_trans (foldl_min_le_init f l _) (Nat.min_le_right ..)
    · exact ih _ x h

theorem foldl_min_cases (f : String → Nat) :
    ∀ (l : List String) (c : Nat),
      l.foldl (fun m s => min m (f s)) c = c ∨
        ∃ x, x ∈ l ∧ l.foldl (fun m s => min m (f s)) c = f x := by
  intro l
  induction l with
  | nil => intro c; exact Or.inl rfl
  | cons s l ih =>
    intro c
    rcases ih (min c (f s)) with h | ⟨x, hx, hfx⟩
    · rw [List.foldl_cons, h]
      rcases Nat.le_total c (f s) with hle | hle
      · exact Or.inl (Nat.min_eq_left hle)
      · exact Or.inr ⟨s, List.mem_cons_self s l, Nat.min_eq_right hle⟩
    · exact Or.inr ⟨x, List.mem_cons_of_mem s hx, hfx⟩

/-- Two lists with the same members give the same fold of min. -/
theorem foldl_min_congr_mem (f : String → Nat) (c : Nat) (A B : List String)
    (hAB : ∀ s, s ∈ A → s ∈ B) (hBA : ∀ s, s ∈ B → s ∈ A) :
    A.foldl (fun m s => min m (f s)) c = B.foldl (fun m s => min m (f s)) c := by
  have key : ∀ (X Y : List String), (∀ s, s ∈ X → s ∈ Y) →
      Y.foldl (fun m s => min m (f s)) c ≤ X.foldl (fun m s => min m (f s)) c := by
    intro X Y hXY
    rcases foldl_min_cases f X c with h | ⟨x, hx, hfx⟩
    · rw [h]; exact foldl_min_le_init f Y c
    · rw [hfx]; exact foldl_min_le_mem f Y c x (hXY x hx)
  exact Nat.le_antisymm (key B A hBA) (key A B hAB)

/-- C10: the MinHash signature is a pure function of the underlying token set:
two token lists with the same members (any order, any duplication) get
identical signatures, for any seeded hash and any instance whose seed list has
the constructor's length. -/
theorem minhash_signature_set_function (hash32 : String → Nat → Nat)
    (mh : MinHash) (A B : List String)
    (hlen : mh.seeds.length = mh.numHashes)
    (hAB : ∀ s, s ∈ A → s ∈ B) (hBA : ∀ s, s ∈ B → s ∈ A) :
    mh.Signature hash32 A = mh.Signature hash32 B := by
  have hinit : List.replicate mh.numHashes maxUint32
      = mh.seeds.map (fun _ => maxUint32) := by
    rw [List.map_const', hlen]
  rw [MinHash.Signature, MinHash.Signature, hinit, sigFold_map, sigFold_map]
  refine List.map_congr_left fun sd _ => ?_
  exact foldl_min_congr_mem _ _ A B hAB hBA

theorem minhash_signature_set_function_witness :
    ((NewMinHash 2).seeds.length = (NewMinHash 2).numHashes ∧
      (∀ s, s ∈ ["b", "a", "a"] → s ∈ ["a", "b"]) ∧
      (∀ s, s ∈ ["a", "b"] → s ∈ ["b", "a", "a"])) ∧
    (NewMinHash 2).Signature hashW ["b", "a", "a"]
      = (NewMinHash 2).Signature hashW ["a", "b"] :=
  ⟨⟨by decide, by decide, by decide⟩,
    minhash_signature_set_function hashW (NewMinHash 2) ["b", "a", "a"]
      ["a", "b"] (by decide) (by decide) (by decide)⟩

/-- C7: on signatures of mismatched shape, Similarity silently returns the
value 0.0 instead of failing with a shape-mismatch error: here sig1 has length
1 and sig2 length 2 against numHashes = 2, and the call still produces 0. -/
theorem minhash_similarity_mismatch_returns_zero :
    (NewMinHash 2).Similarity [5] [5, 7] = 0 := by decide

/-! ## LSH and DocumentSet (near-duplicate index file) -/

/-- bandToString: the uint32 fold h = (h XOR v) * (MaxUint32/2) over the band,
rendered in decimal, exactly as fmt.Sprintf does. -/
def bandToString (band : List Nat) : String :=
  toString (band.foldl (fun h v => (h ^^^ v) * 2147483647 % 2 ^ 32) maxUint32)

/-- Reading a Go map[string][]int bucket: the missing key gives the empty
slice.  The map is modelled as an association list. -/
def lookupTable (t : List (String × List Nat)) (key : String) : List Nat :=
  match t.find? (fun e => e.1 == key) with
  | some e => e.2
  | none => []

/-- Appending an id to a bucket of a map[string][]int. -/
def insertTable : List (String × List Nat) → String → Nat → List (String × List Nat)
  | [], key, id => [(key, [id])]
  | e :: es, key, id =>
    if e.1 == key then (e.1, e.2 ++ [id]) :: es else e :: insertTable es key id

/-- The LSH struct of the near-duplicate file: bands, rows, one bucket table
per band, the shared MinHash, and the document counter. -/
structure LSH where
  bands : Nat
  rows : Nat
  hashTables : List (List (String × List Nat))
  minHash : MinHash
  numDocuments : Nat
deriving Repr, DecidableEq

/-- NewLSH: empty tables and a MinHash of bands*rows hash functions. -/
def NewLSH (bands rows : Nat) : LSH :=
  { bands := bands
    rows := rows
    hashTables := List.replicate bands []
    minHash := NewMinHash (bands * rows)
    numDocuments := 0 }

/-- The band slice signature[i*rows : i*rows+rows] with the end clamp. -/
def bandSlice (signature : List Nat) (rows i : Nat) : List Nat :=
  (signature.drop (i * rows)).take rows

/-- AddDocument: hash the shingles to a signature and append the id to the
bucket of every band. -/
def LSH.AddDocument (hash32 : String → Nat → Nat) (lsh : LSH) (docID : Nat)
    (shingles : List String) : LSH :=
  let signature := lsh.minHash.Signature hash32 shingles
  { lsh with
    hashTables := (List.range lsh.bands).foldl
      (fun tables i =>
        tables.set i
          (insertTable (tables.getD i [])
            (bandToString (bandSlice signature lsh.rows i)) docID))
      lsh.hashTables
    numDocuments := lsh.numDocuments + 1 }

/-- FindSimilar: collect the bucket candidates of every band, then filter them
through the placeholder similarity 0.0 against the threshold.  The Go map of
results is modelled as the list of (id, similarity) pairs the loop keeps. -/
def LSH.FindSimilar (hash32 : String → Nat → Nat) (lsh : LSH)
    (shingles : List String) (threshold : ℚ) : List (Nat × ℚ) :=
  let signature := lsh.minHash.Signature hash32 shingles
  let candidates := (List.range lsh.bands).foldl
    (fun cand i =>
      cand ++ lookupTable (lsh.hashTables.getD i [])
        (bandToString (bandSlice signature lsh.rows i)))
    []
  candidates.foldl
    (fun similarities docID =>
      if (0 : ℚ) ≥ threshold then similarities ++ [(docID, 0)] else similarities)
    []

/-- A Document of the example section: id, path, cached shingles and cached
signature. -/
structure Document where
  ID : Nat
  Path : String
  Shingles : List String
  Signature : List Nat
deriving Repr, DecidableEq

/-- The DocumentSet struct: the stored documents, the MinHash, the LSH index
and the id counter. -/
structure DocumentSet where
  docs : List (Nat × Document)
  minHash : MinHash
  lsh : LSH
  nextID : Nat
deriving Repr, DecidableEq

/-- Go map lookup ds.docs[id], as an Option over the association list. -/
def lookupDoc (docs : List (Nat × Document)) (id : Nat) : Option Document :=
  (docs.find? (fun e => e.1 == id)).map (fun e => e.2)

/-- DocumentSet.FindSimilar: look the query document up, take the LSH
candidates, and refine them by the cached-signature similarity.  A candidate id
missing from docs is skipped (in Go that access would fault on a nil pointer;
it cannot arise for ids inserted through AddDocument). -/
def DocumentSet.FindSimilar (hash32 : String → Nat → Nat) (ds : DocumentSet)
    (docID : Nat) (threshold : ℚ) : List Document :=
  match lookupDoc ds.docs docID with
  | none => []
  | some doc =>
    (ds.lsh.FindSimilar hash32 doc.Shingles threshold).foldl
      (fun similar idpair =>
        if idpair.1 == docID then similar
        else
          match lookupDoc ds.docs idpair.1 with
          | some otherDoc =>
            if ds.minHash.Similarity doc.Signature otherDoc.Signature ≥ threshold
            then similar ++ [otherDoc] else similar
          | none => similar)
      []

/-- For a positive threshold the placeholder similarity 0.0 never passes, so
the LSH candidate refinement keeps nothing. -/
theorem lsh_findSimilar_empty (hash32 : String → Nat → Nat) (lsh : LSH)
    (shingles : List String) (threshold : ℚ) (h : 0 < threshold) :
    lsh.FindSimilar hash32 shingles threshold = [] := by
  rw [LSH.FindSimilar]
  have hno : ¬ ((0 : ℚ) ≥ threshold) := not_le.mpr h
  generalize (List.range lsh.bands).foldl _ [] = candidates
  induction candidates with
  | nil => rfl
  | cons c cs ih => rw [List.foldl_cons, if_neg hno]; exact ih

/-- C3: for every document set and every positive threshold (0.7 of the claim
included), the similarity query returns no records at all, even for two stored
near-identical documents: LSH.FindSimilar compares the placeholder similarity
0.0 against the threshold instead of the true estimated Jaccard, so its
candidate map is always empty and DocumentSet.FindSimilar refines an empty
candidate list. -/
theorem documentSet_findSimilar_always_empty (hash32 : String → Nat → Nat)
    (ds : DocumentSet) (docID : Nat) (threshold : ℚ) (h : 0 < threshold) :
    ds.FindSimilar hash32 docID threshold = [] := by
  rw [DocumentSet.FindSimilar]
  cases lookupDoc ds.docs docID with
  | none => rfl
  | some doc =>
    dsimp only
    rw [lsh_findSimilar_empty hash32 ds.lsh doc.Shingles threshold h,
      List.foldl_nil]

/-- Two stored error records sharing all but one of their 3-word shingles, as
in the claim's scenario; the query still returns nothing. -/
def dsC3 : DocumentSet :=
  let sh0 := ["database connection timeout", "connection timeout failed",
    "timeout failed to", "failed to connect"]
  let sh1 := ["database connection timeout", "connection timeout failed",
    "timeout failed to", "failed to reconnect"]
  let doc0 : Document :=
    { ID := 0, Path := "a.txt", Shingles := sh0
      Signature := (NewMinHash 4).Signature hashW sh0 }
  let doc1 : Document :=
    { ID := 1, Path := "b.txt", Shingles := sh1
      Signature := (NewMinHash 4).Signature hashW sh1 }
  { docs := [(0, doc0), (1, doc1)]
    minHash := NewMinHash 4
    lsh := ((NewLSH 2 2).AddDocument hashW 0 sh0).AddDocument hashW 1 sh1
    nextID := 2 }

theorem documentSet_findSimilar_always_empty_witness :
    (0 : ℚ) < 7 / 10 ∧ dsC3.FindSimilar hashW 0 (7 / 10) = [] :=
  ⟨by norm_num,
    documentSet_findSimilar_always_empty hashW dsC3 0 (7 / 10) (by norm_num)⟩

/-! ## GetTopPaths (log-analysis file)

The Go sort is the double loop
  for i: for j > i: if counts[i].Count < counts[j].Count swap(i, j),
an exchange selection sort.  One outer iteration is captured by selectMax: the
running slot i value is compared against each later element; the loser of each
comparison stays in place and the winner is carried on, so the pass returns the
maximum and the rearranged remainder.  The outer loop is exchSortAux, written
with a fuel argument equal to the list length so that it is structural (one
element is placed per outer iteration, so fuel = length never runs out). -/

def selectMax : String × Nat → List (String × Nat) →
    (String × Nat) × List (String × Nat)
  | x, [] => (x, [])
  | x, y :: ys =>
    if x.2 < y.2 then ((selectMax y ys).1, x :: (selectMax y ys).2)
    else ((selectMax x ys).1, y :: (selectMax x ys).2)

def exchSortAux : Nat → List (String × Nat) → List (String × Nat)
  | _, [] => []
  | 0, l => l
  | fuel + 1, x :: xs => (selectMax x xs).1 :: exchSortAux fuel (selectMax x xs).2

def exchSort (l : List (String × Nat)) : List (String × Nat) :=
  exchSortAux l.length l

/-- GetTopPaths: estimate every known path, sort the pairs by count with the
exchange sort, and return the first n paths.  The Estimate call of the missing
cms package is the explicit argument est. -/
def GetTopPaths (est : String → Nat) (paths : List String) (n : Nat) :
    List String :=
  ((exchSort (paths.map (fun path => (path, est path)))).take n).map
    (fun pc => pc.1)

theorem selectMax_snd_length : ∀ (x : String × Nat) (l : List (String × Nat)),
    ((selectMax x l).2).length = l.length
  | _, [] => rfl
  | x, y :: ys => by
    rw [selectMax]
    by_cases h : x.2 < y.2
    · rw [if_pos h]
      simp [selectMax_snd_length y ys]
    · rw [if_neg h]
      simp [selectMax_snd_length x ys]

theorem selectMax_perm : ∀ (x : String × Nat) (l : List (String × Nat)),
    List.Perm (x :: l) ((selectMax x l).1 :: (selectMax x l).2)
  | _, [] => List.Perm.refl _
  | x, y :: ys => by
    rw [selectMax]
    by_cases h : x.2 < y.2
    · rw [if_pos h]
      exact ((selectMax_perm y ys).cons x).trans (List.Perm.swap _ _ _)
    · rw [if_neg h]
      exact (List.Perm.swap y x ys).trans
        (((selectMax_perm x ys).cons y).trans (List.Perm.swap _ _ _))

theorem le_selectMax_fst : ∀ (x : String × Nat) (l : List (String × Nat)),
    x.2 ≤ (selectMax x l).1.2 ∧ ∀ y ∈ l, y.2 ≤ (selectMax x l).1.2
  | _, [] => ⟨Nat.le_refl _, fun y hy => absurd hy (List.not_mem_nil y)⟩
  | x, y :: ys => by
    rw [selectMax]
    by_cases h : x.2 < y.2
    · rw [if_pos h]
      obtain ⟨h1, h2⟩ := le_selectMax_fst y ys
      refine ⟨Nat.le_trans (Nat.le_of_lt h) h1, fun z hz => ?_⟩
      rcases List.mem_cons.mp hz with hz | hz
      · exact hz ▸ h1
      · exact h2 z hz
    · rw [if_neg h]
      obtain ⟨h1, h2⟩ := le_selectMax_fst x ys
      refine ⟨h1, fun z hz => ?_⟩
      rcases List.mem_cons.mp hz with hz | hz
      · rw [hz]
        exact Nat.le_trans (Nat.le_of_not_lt h) h1
      · exact h2 z hz

theorem exchSortAux_perm : ∀ (fuel : Nat) (l : List (String × Nat)),
    l.length ≤ fuel → List.Perm l (exchSortAux fuel l)
  | fuel, [], _ => by cases fuel <;> exact List.Perm.refl _
  | fuel + 1, x :: xs, hf => by
    rw [exchSortAux]
    refine (selectMax_perm x xs).trans (List.Perm.cons _ ?_)
    refine exchSortAux_perm fuel (selectMax x xs).2 ?_
    rw [selectMax_snd_length]
    exact Nat.le_of_succ_le_succ hf

theorem exchSort_perm (l : List (String × Nat)) : List.Perm l (exchSort l) :=
  exchSortAux_perm l.length l (Nat.le_refl _)

theorem exchSortAux_pairwise : ∀ (fuel : Nat) (l : List (String × Nat)),
    l.length ≤ fuel →
    (exchSortAux fuel l).Pairwise (fun a b => b.2 ≤ a.2)
  | fuel, [], _ => by cases fuel <;> exact List.Pairwise.nil
  | fuel + 1, x :: xs, hf => by
    rw [exchSortAux]
    have hlen : ((selectMax x xs).2).length ≤ fuel := by
      rw [selectMax_snd_length]
      exact Nat.le_of_succ_le_succ hf
    refine List.Pairwise.cons ?_ (exchSortAux_pairwise fuel _ hlen)
    intro b hb
    have hb2 : b ∈ (selectMax x xs).2 :=
      (exchSortAux_perm fuel _ hlen).mem_iff.mpr hb
    have hbx : b ∈ x :: xs :=
      (selectMax_perm x xs).mem_iff.mpr (List.mem_cons_of_mem _ hb2)
    rcases List.mem_cons.mp hbx with hbx | hbx
    · exact hbx ▸ (le_selectMax_fst x xs).1
    · exact (le_selectMax_fst x xs).2 b hbx

theorem exchSort_pairwise (l : List (String × Nat)) :
    (exchSort l).Pairwise (fun a b => b.2 ≤ a.2) :=
  exchSortAux_pairwise l.length l (Nat.le_refl _)

/-- C4 (amended): GetTopPaths returns min(n, |paths|) of the known paths in
non-increasing order of their estimates, and the result together with the part
it cut off exhausts the input: every returned path is a known path, and every
known path left out estimates no higher than any returned one.  The order of
paths with equal estimates is not the input order: the exchange sort is
unstable (see the counterexample). -/
theorem getTopPaths_sorted_desc (est : String → Nat) (paths : List String)
    (n : Nat) :
    List.Pairwise (fun a b => est b ≤ est a) (GetTopPaths est paths n) ∧
    (GetTopPaths est paths n).length = min n paths.length ∧
    (∀ q ∈ GetTopPaths est paths n, q ∈ paths) ∧
    (∀ p ∈ paths, p ∉ GetTopPaths est paths n →
      ∀ q ∈ GetTopPaths est paths n, est p ≤ est q) := by
  have hperm := exchSort_perm (paths.map (fun path => (path, est path)))
  have hpw := exchSort_pairwise (paths.map (fun path => (path, est path)))
  have hval : ∀ z ∈ exchSort (paths.map (fun path => (path, est path))),
      z.2 = est z.1 ∧ z.1 ∈ paths := by
    intro z hz
    have : z ∈ paths.map (fun path => (path, est path)) :=
      hperm.mem_iff.mpr hz
    obtain ⟨p, hp, he⟩ := List.mem_map.mp this
    refine ⟨?_, ?_⟩
    · rw [← he]
    · rw [← he]; exact hp
  refine ⟨?_, ?_, ?_, ?_⟩
  · rw [GetTopPaths, List.pairwise_map]
    refine List.Pairwise.imp_of_mem ?_ (hpw.sublist (List.take_sublist ..))
    intro a b ha hb hle
    have ha' := (hval a ((List.take_sublist ..).mem ha)).1
    have hb' := (hval b ((List.take_sublist ..).mem hb)).1
    rw [← ha', ← hb']
    exact hle
  · rw [GetTopPaths, List.length_map, List.length_take, ← hperm.length_eq,
      List.length_map]
  · intro q hq
    obtain ⟨z, hz, he⟩ := List.mem_map.mp hq
    exact he ▸ (hval z ((List.take_sublist ..).mem hz)).2
  · intro p hp hpnot q hq
    set L := exchSort (paths.map (fun path => (path, est path))) with hL
    have hpairL : (p, est p) ∈ L :=
      hperm.mem_iff.mp (List.mem_map.mpr ⟨p, hp, rfl⟩)
    have hsplit : L.take n ++ L.drop n = L := List.take_append_drop n L
    have hcross : ∀ a ∈ L.take n, ∀ b ∈ L.drop n, b.2 ≤ a.2 := by
      have := hpw
      rw [← hsplit] at this
      exact (List.pairwise_append.mp this).2.2
    have hpair_drop : (p, est p) ∈ L.drop n := by
      rcases List.mem_append.mp (by rw [hsplit]; exact hpairL) with hmem | hmem
      · exact absurd (List.mem_map.mpr ⟨(p, est p), hmem, rfl⟩) hpnot
      · exact hmem
    obtain ⟨zq, hzq, hezq⟩ := List.mem_map.mp hq
    have h1 : (p, est p).2 ≤ zq.2 := hcross zq hzq _ hpair_drop
    have h2 := (hval zq ((List.take_sublist ..).mem hzq)).1
    rw [← hezq, ← h2]
    exact h1

/-- The estimate of the counterexample: c counts 3, a and b tie at 2. -/
def estC4 : String → Nat := fun s => if s = "c" then 3 else 2

/-- C4 counterexample: with equal estimates for a and b (a first in the
input), the returned order is c, b, a: the exchange sort moved b ahead of a,
so ties are not broken by first-seen input order. -/
theorem getTopPaths_tie_not_input_order :
    GetTopPaths estC4 ["a", "b", "c"] 3 = ["c", "b", "a"] ∧
    estC4 "a" = estC4 "b" ∧
    List.indexOf "a" ["a", "b", "c"] < List.indexOf "b" ["a", "b", "c"] ∧
    ¬ List.indexOf "a" (GetTopPaths estC4 ["a", "b", "c"] 3)
        < List.indexOf "b" (GetTopPaths estC4 ["a", "b", "c"] 3) := by decide

/-! ## LogAnalyzer (log-analysis file)

ProcessLogEntry itself is in the repository; the packages it instantiates
(ourpackage/bloomfilter, cms, hyperloglog, minhash, lsh) are not, so their
state types are modelled here: bloomfilter and cms by the chapter09 embeddings
above (Test is Contains, Add is Increment), and the remaining three from the
spec. -/

/-- Modelled from the spec: ourpackage/hyperloglog is not under src/.  Per
section 4.4, 2^precision registers; Add hashes to 64 bits, the top precision
bits pick the register, and the register keeps the maximum of
(leading-zero count of the remaining bits) + 1. -/
structure HyperLogLog where
  precision : Nat
  registers : List Nat
deriving Repr, DecidableEq

def NewHyperLogLog (precision : Nat) : HyperLogLog :=
  { precision := precision, registers := List.replicate (2 ^ precision) 0 }

/-- Leading zeros of a value of width bits (the value is below 2^width). -/
def leadingZeros (width v : Nat) : Nat :=
  if v = 0 then width else width - (Nat.log2 v + 1)

def HyperLogLog.Add (hash64 : String → Nat) (hll : HyperLogLog)
    (data : String) : HyperLogLog :=
  let h := hash64 data % 2 ^ 64
  let idx := h >>> (64 - hll.precision)
  let rest := h % 2 ^ (64 - hll.precision)
  let rank := leadingZeros (64 - hll.precision) rest + 1
  { hll with
    registers := hll.registers.set idx (max (hll.registers.getD idx 0) rank) }

/-- Modelled from the spec: ourpackage/minhash (Reset/Update/Signature) is not
under src/.  Per section 4.5 it keeps numHashes running minima; Reset restores
the max-value sentinel and Update lowers each slot by the seeded 32-bit hash of
the data. -/
structure MinHashState where
  numHashes : Nat
  sig : List Nat
deriving Repr, DecidableEq

def MinHashState.Reset (m : MinHashState) : MinHashState :=
  { m with sig := List.replicate m.numHashes maxUint32 }

def MinHashState.Update (hash32 : String → Nat → Nat) (m : MinHashState)
    (data : String) : MinHashState :=
  { m with
    sig := (m.sig.zip ((List.range m.numHashes).map (fun i => i + 1))).map
      (fun p => min p.1 (hash32 data p.2 % 2 ^ 32)) }

def MinHashState.Signature (m : MinHashState) : List Nat := m.sig

/-- Modelled from the spec: ourpackage/lsh (Insert) is not under src/.  Per
section 4.6, the signature is split into bands chunks of rows values and the id
is appended to the bucket of each chunk's deterministic composite key; the key
and bucket maps reuse the embeddings of the near-duplicate file. -/
structure LSHIndex where
  bands : Nat
  rows : Nat
  tables : List (List (String × List Nat))
deriving Repr, DecidableEq

def NewLSHIndex (bands rows : Nat) : LSHIndex :=
  { bands := bands, rows := rows, tables := List.replicate bands [] }

def LSHIndex.Insert (idx : LSHIndex) (id : Nat) (signature : List Nat) :
    LSHIndex :=
  { idx with
    tables := (List.range idx.bands).foldl
      (fun ts i =>
        ts.set i
          (insertTable (ts.getD i [])
            (bandToString (bandSlice signature idx.rows i)) id))
      idx.tables }

/-- A parsed log entry; the timestamp is kept as its RFC3339 rendering, which
is all ProcessLogEntry uses. -/
structure LogEntry where
  Timestamp : String
  IP : String
  UserID : String
  SessionID : String
  Path : String
  Status : Int
  Message : String
deriving Repr, DecidableEq

/-- The LogAnalyzer struct: one instance of each structure plus the error
record store and its id counter. -/
structure LogAnalyzer where
  deduper : BloomFilter
  pathCounter : CountMinSketch
  userCounter : HyperLogLog
  sessionCounter : HyperLogLog
  errorMinhash : MinHashState
  errorLSH : LSHIndex
  errorMessages : List (Nat × LogEntry)
  nextErrorID : Nat
deriving Repr, DecidableEq

/-- The canonical dedup key fmt.Sprintf("%s-%s-%s-%s-%d", timestamp, IP,
UserID, Path, Status). -/
def entryKey (entry : LogEntry) : String :=
  entry.Timestamp ++ "-" ++ entry.IP ++ "-" ++ entry.UserID ++ "-" ++
    entry.Path ++ "-" ++ toString entry.Status

/-- ProcessLogEntry: drop the entry when the deduper already reports its key,
otherwise mark it seen, count its path, feed both cardinality estimators and,
for status >= 400, sign the message, store the record under nextErrorID, index
it in the LSH, and advance the counter.  The per-package hash functions are the
explicit arguments. -/
def LogAnalyzer.ProcessLogEntry (hashBF hashCMS hashMH : String → Nat → Nat)
    (hashHLL : String → Nat) (la : LogAnalyzer) (entry : LogEntry) :
    LogAnalyzer :=
  if la.deduper.Contains hashBF (entryKey entry) then la
  else
    let la1 : LogAnalyzer :=
      { la with
        deduper := la.deduper.Add hashBF (entryKey entry)
        pathCounter := la.pathCounter.Increment hashCMS entry.Path 1
        userCounter := la.userCounter.Add hashHLL entry.UserID
        sessionCounter := la.sessionCounter.Add hashHLL entry.SessionID }
    if entry.Status ≥ 400 then
      let mh := (la1.errorMinhash.Reset).Update hashMH entry.Message
      { la1 with
        errorMinhash := mh
        errorMessages := la1.errorMessages ++ [(la1.nextErrorID, entry)]
        errorLSH := la1.errorLSH.Insert la1.nextErrorID mh.Signature
        nextErrorID := la1.nextErrorID + 1 }
    else la1

/-- C8: when the deduper reports the canonical key of the record as present,
ProcessLogEntry drops the record and the whole analyzer state -- Bloom filter,
frequency sketch, both cardinality estimators, MinHash state, LSH index, error
record store and nextErrorID counter -- is returned unchanged. -/
theorem processLogEntry_duplicate_frame (hashBF hashCMS hashMH : String → Nat → Nat)
    (hashHLL : String → Nat) (la : LogAnalyzer) (entry : LogEntry)
    (h : la.deduper.Contains hashBF (entryKey entry) = true) :
    la.ProcessLogEntry hashBF hashCMS hashMH hashHLL entry = la := by
  rw [LogAnalyzer.ProcessLogEntry, if_pos h]

/-- A concrete analyzer whose deduper has zero hash functions, so Contains is
vacuously true and every entry is reported as a duplicate. -/
def laC8 : LogAnalyzer :=
  { deduper := { bitset := [0], size := 64, k := 0 }
    pathCounter := NewCountMinSketch 1 1
    userCounter := NewHyperLogLog 1
    sessionCounter := NewHyperLogLog 1
    errorMinhash := { numHashes := 1, sig := [maxUint32] }
    errorLSH := NewLSHIndex 1 1
    errorMessages := []
    nextErrorID := 0 }

def entryC8 : LogEntry :=
  { Timestamp := "2023-04-15T10:20:30Z", IP := "192.168.1.1", UserID := "u1"
    SessionID := "s1", Path := "/api/items", Status := 500, Message := "boom" }

theorem processLogEntry_duplicate_frame_witness :
    laC8.deduper.Contains hashW (entryKey entryC8) = true ∧
    laC8.ProcessLogEntry hashW hashW hashW (fun s => s.length) entryC8 = laC8 :=
  ⟨by decide,
    processLogEntry_duplicate_frame hashW hashW hashW (fun s => s.length)
      laC8 entryC8 (by decide)⟩

/-- C6: for the invalid construction input expectedElements = 0 (rate 0.5) the
Go constructor raises no error of any kind -- its return type has no error
component -- and hands back a degenerate structure: bit size 0 and an empty
bitset, on which every Add and Contains would take a modulus by zero (a Go
runtime panic).  Whatever hash count the NaN conversion produces, the result
violates the well-formedness the rest of the development relies on. -/
theorem newBloomFilter_no_validation :
    ∀ k : Nat, (NewBloomFilter 0 k).size = 0 ∧ (NewBloomFilter 0 k).bitset = []
      ∧ ¬ (NewBloomFilter 0 k).WF :=
  fun k => ⟨rfl, rfl, fun h => Nat.lt_irrefl 0 h.1⟩

end Gophers
